import Mathlib

/-!
Verification development for the lp-solvers repository.

The shallow embedding below translates the relevant Rust source into Lean:

* `src/src/operations.rs` — the operator-overloaded expression algebra
  (`LpExpression`, the `Add`/`Sub`/`Neg`/`Mul` trait impls, and the
  `LpOperations` constraint constructors `le`/`ge`/`equal`).
* `src/src/solvers/cplex.rs` — the CPLEX adapter: `with_mip_gap`
  configuration, `arguments` command-line construction,
  `parse_stdout_status` stdout scanning, and `read_specific_solution`
  XML solution parsing.

Rust `f32` is modelled by a sign bit together with a kind (finite magnitude
as a rational, infinity, or NaN); the claims we verify depend only on the
sign bit, finiteness, and the signed value, never on rounding.  Rust
`Result<T, String>` is `Except String T`, `Option<T>` is `Option T`, and
`HashMap<String, V>` is an association list with replace-or-append insert
(capacity is not observable in the contents, mirroring `HashMap`).
-/

namespace LpSolvers

/-! ## Expression algebra (`src/src/operations.rs`) -/

/-- The recursive linear-expression tree.  `LitVal`, `AddExpr`, `SubExpr`
and `MulExpr` are the constructors used by `operations.rs`; `Var` is the
named-variable reference node (the variable type itself lives in the
`variables` module; the spec's data model describes the reference as a
node identified by the variable's name). -/
inductive LpExpression where
  | LitVal (n : Int)
  | Var (name : String)
  | AddExpr (a b : LpExpression)
  | SubExpr (a b : LpExpression)
  | MulExpr (a b : LpExpression)
  deriving Repr, DecidableEq

namespace LpExpression

/-- `impl Add for LpExpression` (operations.rs lines 40-61): every addition
impl builds an `AddExpr` node from its two operands. -/
def addLp (a b : LpExpression) : LpExpression := AddExpr a b

/-- `impl Sub for LpExpression` (operations.rs lines 64-85): every
subtraction impl builds a `SubExpr` node. -/
def subLp (a b : LpExpression) : LpExpression := SubExpr a b

/-- `impl Neg for &LpExpression` (operations.rs lines 87-92):
`-e` is `MulExpr(Rc::new(LitVal(-1)), Rc::new(e.clone()))`. -/
def negLp (e : LpExpression) : LpExpression := MulExpr (LitVal (-1)) e

/-- `impl Mul<LpExpression> for i32` and `impl Mul<&LpExpression> for i32`
(operations.rs lines 96-111): an integer literal times an expression is a
`MulExpr` product node with the literal as left child. -/
def mulInt (n : Int) (e : LpExpression) : LpExpression := MulExpr (LitVal n) e

/-- Overload resolution for `*` over expression values.  The only `Mul`
impls in operations.rs take an `i32` on the left (and `i32` embeds into
`LpExpression` as `LitVal`, per `impl Into<LpExpression> for i32`), so a
multiplication of two expression values is constructible exactly when the
left operand is the embedding of an integer literal; for any other left
operand no impl exists and construction fails. -/
def mulLp : LpExpression → LpExpression → Option LpExpression
  | LitVal n, e => some (mulInt n e)
  | _, _ => none

/-- Whether the expression tree contains at least one variable node. -/
def containsVar : LpExpression → Bool
  | LitVal _ => false
  | Var _ => true
  | AddExpr a b => containsVar a || containsVar b
  | SubExpr a b => containsVar a || containsVar b
  | MulExpr a b => containsVar a || containsVar b

end LpExpression

/-! ## The `f32` model and CPLEX configuration (`src/src/solvers/cplex.rs`) -/

/-- The kind of an IEEE-754 `f32`: a finite magnitude, an infinity, or a
NaN.  Finite magnitudes are modelled as non-negative rationals (a strict
superset of representable `f32` magnitudes; the verified claims depend
only on sign, finiteness and the signed value). -/
inductive F32Kind where
  | finite (mag : ℚ)
  | infinite
  | nan
  deriving Repr, DecidableEq

/-- An `f32` value: its IEEE sign bit (`negSign = true` means the sign bit
is set, as in `-0.0`, `-1.5`, `-inf`) together with its kind. -/
structure F32 where
  negSign : Bool
  kind : F32Kind
  deriving Repr, DecidableEq

namespace F32

/-- Rust `f32::is_sign_positive`: true iff the sign bit is clear (so
`(-0.0).is_sign_positive() == false` even though `-0.0 == 0.0`). -/
def isSignPositive (x : F32) : Bool := !x.negSign

/-- Rust `f32::is_finite`: true iff the value is neither infinite nor NaN. -/
def isFiniteF (x : F32) : Bool :=
  match x.kind with
  | .finite _ => true
  | _ => false

/-- The numeric value of a finite `f32` (junk value `0` on non-finite
inputs, which have no numeric value). -/
def val (x : F32) : ℚ :=
  match x.kind with
  | .finite m => if x.negSign then -m else m
  | _ => 0

/-- A well-formed `f32` model has a non-negative finite magnitude (the sign
lives in the sign bit). -/
def WF (x : F32) : Prop :=
  match x.kind with
  | .finite m => 0 ≤ m
  | _ => True

instance (x : F32) : Decidable x.WF := by
  unfold WF
  cases x.kind <;> infer_instance

/-- Negative zero: sign bit set, magnitude zero. -/
def negZero : F32 := ⟨true, .finite 0⟩

end F32

/-- The `Cplex` solver configuration struct (cplex.rs lines 17-21). -/
structure Cplex where
  command : String
  mipgap : Option F32
  deriving Repr, DecidableEq

namespace Cplex

/-- `impl Default for Cplex` (cplex.rs lines 23-30). -/
def default : Cplex := ⟨"cplex", none⟩

/-- `WithMipGap::with_mip_gap` (cplex.rs lines 47-56): accept the gap iff
`mipgap.is_sign_positive() && mipgap.is_finite()`, otherwise return the
error string. -/
def with_mip_gap (self : Cplex) (mipgap : F32) : Except String Cplex :=
  if mipgap.isSignPositive && mipgap.isFiniteF then
    .ok { self with mipgap := some mipgap }
  else
    .error "Invalid MIP gap: must be positive and finite"

/-- `SolverProgram::arguments` for Cplex (cplex.rs lines 72-83).  Paths and
`OsString`s are modelled as strings; `toStr` stands for Rust's
`f32::to_string` display of the stored gap. -/
def arguments (self : Cplex) (toStr : F32 → String) (lp_file solution_file : String) :
    List String :=
  let args := ["-c", "READ \"" ++ lp_file ++ "\""]
  let args :=
    match self.mipgap with
    | some mipgap => args ++ ["set mip tolerances mipgap " ++ toStr mipgap]
    | none => args
  args ++ ["optimize", "WRITE \"" ++ solution_file ++ "\""]

end Cplex

/-! ## Solver status and stdout scanning -/

/-- Modelled from the spec: the uniform solution status enum
(`{status: enum{Optimal,Infeasible,Unbounded,Unknown}}`, spec §6); the
`solvers` module that declares it is not under `src/`. -/
inductive Status where
  | Optimal
  | Infeasible
  | Unbounded
  | Unknown
  deriving Repr, DecidableEq

/-- Does `pat` occur starting at the head of `buf`?  (The standard
list-prefix test, spelled out so the containment scan below is
self-contained.) -/
def charsStartWith : List Char → List Char → Bool
  | [], _ => true
  | _ :: _, [] => false
  | p :: ps, b :: bs => p == b && charsStartWith ps bs

/-- Modelled from the spec: `crate::util::buf_contains` (the `util` module
is not under `src/`) checks whether the captured stdout byte buffer
contains the given marker string as a contiguous substring (spec §4.4:
"a stdout-scanning rule to detect ... a literal marker string"). -/
def buf_contains (buf : List Char) (pat : List Char) : Bool :=
  match buf with
  | [] => charsStartWith pat []
  | _ :: rest => charsStartWith pat buf || buf_contains rest pat

/-- `SolverProgram::parse_stdout_status` for Cplex (cplex.rs lines 85-91):
`Some(Status::Infeasible)` iff stdout contains `"No solution exists"`,
`None` otherwise. -/
def parse_stdout_status (stdout : List Char) : Option Status :=
  if buf_contains stdout "No solution exists".toList then
    some Status.Infeasible
  else
    none

/-! ## XML solution parsing (`Cplex::read_specific_solution`, cplex.rs 98-141)

`EventReader::new(f)` turns the solution artifact into a stream of
`Result<XmlEvent, _>` items; we embed that stream as a list of events
(the XML tokenisation itself is the external `xml` crate).  The numeric
type of the values and Rust's `str::parse` for it are abstracted as a type
`α` and a function `parseVal : String → Except String α` whose error is
the `Display` text of the parse error. -/

/-- One XML attribute: its local name and its string value. -/
structure Attr where
  name : String
  value : String
  deriving Repr, DecidableEq

/-- One item of the `EventReader` iterator, as matched by the `for` loop:
an `Ok(StartElement { name, attributes, .. })`, any other `Ok` event
(ignored by the `_ => {}` arm), or an `Err(e)` with display text `e`. -/
inductive XmlEvent where
  | startElement (localName : String) (attributes : List Attr)
  | otherEvent
  | xmlError (msg : String)
  deriving Repr, DecidableEq

/-- The uniform solution record: status plus variable→value mapping
(association list standing for `HashMap<String, α>`). -/
structure Solution (α : Type) where
  status : Status
  results : List (String × α)
  deriving Repr, DecidableEq

/-- `HashMap::insert`: replace the value at an existing key, otherwise add
the entry. -/
def mapInsert {α : Type} (m : List (String × α)) (k : String) (v : α) :
    List (String × α) :=
  match m with
  | [] => [(k, v)]
  | (k', v') :: rest =>
      if k' = k then (k, v) :: rest else (k', v') :: mapInsert rest k v

/-- Rust's `{:?}` (Debug) formatting of the `Option<String>` holding the
captured name, as interpolated into the parse-error message (exact for
names with no characters needing escapes). -/
def debugOptStr : Option String → String
  | none => "None"
  | some s => "Some(\"" ++ s ++ "\")"

/-- The attribute loop of `read_specific_solution` (cplex.rs 118-129):
walk the attributes in order, recording the last `name` attribute and the
last parsed `value` attribute; a `value` attribute that fails to parse
aborts the whole call with the message naming the `name` captured so far. -/
def processAttrs {α : Type} (parseVal : String → Except String α) :
    List Attr → Option String → Option α → Except String (Option String × Option α)
  | [], name, value => .ok (name, value)
  | attr :: rest, name, value =>
      if attr.name = "name" then
        processAttrs parseVal rest (some attr.value) value
      else if attr.name = "value" then
        match parseVal attr.value with
        | .error e =>
            .error ("invalid variable value for " ++ debugOptStr name ++ ": " ++ e)
        | .ok parsed => processAttrs parseVal rest name (some parsed)
      else
        processAttrs parseVal rest name value

/-- The event loop of `read_specific_solution` (cplex.rs 110-138): on a
`variable` start element run the attribute loop and insert the entry once
both name and value were captured; an `Err` event aborts with
`"xml error: ..."`; everything else is skipped. -/
def runEvents {α : Type} (parseVal : String → Except String α) :
    List XmlEvent → Solution α → Except String (Solution α)
  | [], solution => .ok solution
  | .xmlError e :: _, _ => .error ("xml error: " ++ e)
  | .otherEvent :: rest, solution => runEvents parseVal rest solution
  | .startElement localName attributes :: rest, solution =>
      if localName = "variable" then
        match processAttrs parseVal attributes none none with
        | .error msg => .error msg
        | .ok (some name, some value) =>
            runEvents parseVal rest
              { solution with results := mapInsert solution.results name value }
        | .ok _ => runEvents parseVal rest solution
      else
        runEvents parseVal rest solution

/-- `HashMap::with_capacity(len)`: an empty map (capacity is not
observable in the contents). -/
def withCapacity {α : Type} (_len : Nat) : List (String × α) := []

/-- `SolverWithSolutionParsing::read_specific_solution` for Cplex
(cplex.rs 99-140).  `hint` is `problem.map(|p| p.variables().size_hint().0)`
— the optional problem reduced to the expected variable count it
contributes; the solution starts as `Status::Optimal` with a map of the
hinted capacity, and the event loop runs over the artifact's stream. -/
def read_specific_solution {α : Type} (parseVal : String → Except String α)
    (hint : Option Nat) (events : List XmlEvent) : Except String (Solution α) :=
  let len := hint.getD 0
  runEvents parseVal events { status := Status.Optimal, results := withCapacity len }

/-- An event the loop passes over without aborting: not an `Err` item, and
if it is a `variable` element, its attribute loop does not fail. -/
def eventOk {α : Type} (parseVal : String → Except String α) : XmlEvent → Prop
  | .xmlError _ => False
  | .otherEvent => True
  | .startElement localName attributes =>
      localName = "variable" → ∃ r, processAttrs parseVal attributes none none = .ok r

/-- Equality of `Except` results is decidable when both components are. -/
instance exceptDecEq {ε α : Type} [DecidableEq ε] [DecidableEq α] :
    DecidableEq (Except ε α) := fun x y =>
  match x, y with
  | .ok a, .ok b =>
      if h : a = b then isTrue (by rw [h])
      else isFalse (fun hc => h (by cases hc; rfl))
  | .error a, .error b =>
      if h : a = b then isTrue (by rw [h])
      else isFalse (fun hc => h (by cases hc; rfl))
  | .ok _, .error _ => isFalse (fun hc => Except.noConfusion hc)
  | .error _, .ok _ => isFalse (fun hc => Except.noConfusion hc)

/-- Accumulate the decimal value of a digit string (failing on a
non-digit). -/
def natFromCharsAux : List Char → Nat → Option Nat
  | [], acc => some acc
  | c :: rest, acc =>
      if c.isDigit then natFromCharsAux rest (acc * 10 + (c.toNat - 48)) else none

/-- A concrete value parser for witnesses: non-empty decimal natural-number
literals, failing with Rust's float parse-error text on anything else. -/
def natParse (s : String) : Except String Nat :=
  match s.toList with
  | [] => .error "invalid float literal"
  | cs =>
      match natFromCharsAux cs 0 with
      | some n => .ok n
      | none => .error "invalid float literal"

/-! ## Constraint model (`LpOperations`, operations.rs 26-36)

The constraint constructors build
`LpConstraint(self.into(), op, rhs.into()).generalize()`.  `LpConstraint`
and `generalize` live in the `variables` module, which is not under
`src/`; they are modelled from the spec below. -/

/-- The relational operator enum `Constraint` (operations.rs line 2). -/
inductive ConstraintOp where
  | LessOrEqual
  | GreaterOrEqual
  | Equal
  deriving Repr, DecidableEq

/-- The tuple struct `LpConstraint(lhs, op, rhs)`. -/
structure LpConstraint where
  lhs : LpExpression
  op : ConstraintOp
  rhs : LpExpression
  deriving Repr, DecidableEq

/-- Add `c` to the coefficient of `v`, merging duplicate occurrences by
summation (spec §4.1). -/
def addCoef (m : List (String × Int)) (v : String) (c : Int) :
    List (String × Int) :=
  match m with
  | [] => [(v, c)]
  | (v', c') :: rest =>
      if v' = v then (v, c' + c) :: rest else (v', c') :: addCoef rest v c

/-- Merge two coefficient maps by summation. -/
def mergeCoefs (m : List (String × Int)) : List (String × Int) → List (String × Int)
  | [] => m
  | (v, c) :: rest => mergeCoefs (addCoef m v c) rest

/-- Scale every coefficient by `k`. -/
def scaleCoefs (k : Int) (m : List (String × Int)) : List (String × Int) :=
  m.map (fun p => (p.1, k * p.2))

/-- Modelled from the spec: canonicalization (spec §4.1, implemented in the
`variables` module which is not under `src/`) — a post-order traversal
computing a variable→coefficient map and an accumulated constant,
distributing literal multiplication over sums and differences and merging
duplicate variables by summation; a product whose left factor is not a
literal has no linear representation, so canonicalization fails there. -/
def canon : LpExpression → Option (List (String × Int) × Int)
  | .LitVal n => some ([], n)
  | .Var v => some ([(v, 1)], 0)
  | .AddExpr a b => do
      let (ca, ka) ← canon a
      let (cb, kb) ← canon b
      pure (mergeCoefs ca cb, ka + kb)
  | .SubExpr a b => do
      let (ca, ka) ← canon a
      let (cb, kb) ← canon b
      pure (mergeCoefs ca (scaleCoefs (-1) cb), ka - kb)
  | .MulExpr a b =>
      match a with
      | .LitVal n => do
          let (cb, kb) ← canon b
          pure (scaleCoefs n cb, n * kb)
      | _ => none

/-- Rebuild the variable-coefficient part as an expression:
`c₁·v₁ + c₂·v₂ + ...` (constant `0` when there are no variables). -/
def exprOfCoefs : List (String × Int) → LpExpression
  | [] => .LitVal 0
  | [(v, c)] => .MulExpr (.LitVal c) (.Var v)
  | (v, c) :: rest => .AddExpr (.MulExpr (.LitVal c) (.Var v)) (exprOfCoefs rest)

/-- Modelled from the spec: `LpConstraint::generalize` (spec §4.2, in the
`variables` module which is not under `src/`) — canonicalize `lhs - rhs`,
keep the variable-coefficient part on the left, negate the constant part
onto the right, and preserve the relational operator unchanged. -/
def generalize (c : LpConstraint) : Option LpConstraint := do
  let (coefs, k) ← canon (.SubExpr c.lhs c.rhs)
  pure ⟨exprOfCoefs coefs, c.op, .LitVal (-k)⟩

/-- `LpOperations::le` (operations.rs 27-29):
`LpConstraint(self, LessOrEqual, rhs).generalize()`. -/
def leOp (self rhs : LpExpression) : Option LpConstraint :=
  generalize ⟨self, ConstraintOp.LessOrEqual, rhs⟩

/-- `LpOperations::ge` (operations.rs 30-32). -/
def geOp (self rhs : LpExpression) : Option LpConstraint :=
  generalize ⟨self, ConstraintOp.GreaterOrEqual, rhs⟩

/-- `LpOperations::equal` (operations.rs 33-35). -/
def equalOp (self rhs : LpExpression) : Option LpConstraint :=
  generalize ⟨self, ConstraintOp.Equal, rhs⟩

/-- The rhs of a generalized constraint is a pure constant: its
canonicalization has an empty variable-coefficient map. -/
def pureConstant (e : LpExpression) : Prop :=
  ∃ k : Int, canon e = some ([], k)

/-! ## Claim theorems -/

/-! Semantic characterisation of the containment scan, so the stdout-scan
theorem is stated against substring occurrence rather than against the
scanning code itself. -/

theorem charsStartWith_iff (p b : List Char) :
    charsStartWith p b = true ↔ ∃ t, b = p ++ t := by
  induction p generalizing b with
  | nil => simp [charsStartWith]
  | cons x xs ih =>
    cases b with
    | nil =>
      simp [charsStartWith]
    | cons y ys =>
      simp only [charsStartWith, Bool.and_eq_true, beq_iff_eq, ih, List.cons_append,
        List.cons.injEq]
      constructor
      · rintro ⟨rfl, t, rfl⟩
        exact ⟨t, rfl, rfl⟩
      · rintro ⟨t, rfl, rfl⟩
        exact ⟨rfl, t, rfl⟩

theorem buf_contains_iff (buf pat : List Char) :
    buf_contains buf pat = true ↔ ∃ pre post, buf = pre ++ pat ++ post := by
  induction buf with
  | nil =>
    simp only [buf_contains, charsStartWith_iff]
    constructor
    · rintro ⟨t, ht⟩
      exact ⟨[], t, by simpa using ht⟩
    · rintro ⟨pre, post, h⟩
      rcases List.append_eq_nil.mp (List.append_eq_nil.mp h.symm).1 with ⟨h1, h2⟩
      exact ⟨post, by simp [h2, (List.append_eq_nil.mp h.symm).2.symm]⟩
  | cons c rest ih =>
    simp only [buf_contains, Bool.or_eq_true, charsStartWith_iff, ih]
    constructor
    · rintro (⟨t, ht⟩ | ⟨pre, post, hp⟩)
      · exact ⟨[], t, by simp [ht]⟩
      · exact ⟨c :: pre, post, by simp [hp]⟩
    · rintro ⟨pre, post, hp⟩
      cases pre with
      | nil =>
        exact Or.inl ⟨post, by simpa using hp⟩
      | cons d ds =>
        simp only [List.cons_append, List.cons.injEq] at hp
        exact Or.inr ⟨ds, post, hp.2⟩

/-- C1: multiplying two expressions that each contain at least one variable
never yields an expression node (no `Mul` impl accepts an expression on the
left, so overload resolution fails at construction time), while multiplying
an integer literal by any expression always succeeds and returns a
`MulExpr` product node. -/
theorem c1_mul_two_variable_expressions_fails (a b : LpExpression)
    (ha : a.containsVar = true) (_hb : b.containsVar = true) :
    LpExpression.mulLp a b = none ∧
    ∀ (n : Int) (e : LpExpression),
      LpExpression.mulLp (.LitVal n) e = some (.MulExpr (.LitVal n) e) := by
  refine ⟨?_, fun n e => rfl⟩
  cases a with
  | LitVal n => simp [LpExpression.containsVar] at ha
  | Var v => rfl
  | AddExpr x y => rfl
  | SubExpr x y => rfl
  | MulExpr x y => rfl

/-- Witness for C1 at the concrete pair `a * b` of variable expressions. -/
theorem c1_witness :
    LpExpression.mulLp (.Var "a") (.Var "b") = none ∧
    ∀ (n : Int) (e : LpExpression),
      LpExpression.mulLp (.LitVal n) e = some (.MulExpr (.LitVal n) e) :=
  c1_mul_two_variable_expressions_fails (.Var "a") (.Var "b") rfl rfl

/-- C10: unary negation of an expression builds exactly the same tree as
the scalar product `(-1) * e` — a product node with literal `-1` on the
left and `e` on the right. -/
theorem c10_neg_is_mul_minus_one (e : LpExpression) :
    LpExpression.negLp e = LpExpression.mulInt (-1) e ∧
    LpExpression.negLp e = .MulExpr (.LitVal (-1)) e :=
  ⟨rfl, rfl⟩

/-- C2 counterexample: `-0.0` (sign bit set, magnitude zero) is a
non-negative finite `f32` — its numeric value is `0` — yet `with_mip_gap`
rejects it, because the code tests `is_sign_positive`, not numeric
non-negativity. -/
theorem c2_counterexample :
    F32.negZero.isFiniteF = true ∧ 0 ≤ F32.negZero.val ∧ F32.negZero.WF ∧
    Cplex.with_mip_gap Cplex.default F32.negZero =
      .error "Invalid MIP gap: must be positive and finite" := by
  refine ⟨rfl, ?_, ?_, rfl⟩
  · show (0 : ℚ) ≤ -0
    norm_num
  · show (0 : ℚ) ≤ 0
    norm_num

/-- C2 (amended): `with_mip_gap` returns `Ok` storing the gap exactly for
the finite `f32` arguments whose IEEE sign bit is clear (so every strictly
positive finite value and `+0.0`), and returns the descriptive error for
every argument whose sign bit is set (hence for every strictly negative
value and for `-0.0`) and for every non-finite argument; the check is a
pure configuration-time computation. -/
theorem c2_with_mip_gap_amended (c : Cplex) (g : F32) :
    (g.isSignPositive = true ∧ g.isFiniteF = true →
      Cplex.with_mip_gap c g = .ok { c with mipgap := some g }) ∧
    (g.isSignPositive = false ∨ g.isFiniteF = false →
      Cplex.with_mip_gap c g =
        .error "Invalid MIP gap: must be positive and finite") ∧
    (g.WF → g.isFiniteF = true → 0 < g.val →
      Cplex.with_mip_gap c g = .ok { c with mipgap := some g }) ∧
    (g.WF → g.val < 0 →
      Cplex.with_mip_gap c g =
        .error "Invalid MIP gap: must be positive and finite") := by
  obtain ⟨sign, kind⟩ := g
  refine ⟨?_, ?_, ?_, ?_⟩
  · rintro ⟨h1, h2⟩
    simp [Cplex.with_mip_gap, h1, h2]
  · intro h
    rcases h with h | h <;> simp [Cplex.with_mip_gap, h]
  · intro hwf hfin hval
    cases kind with
    | finite m =>
      cases sign with
      | false => simp [Cplex.with_mip_gap, F32.isSignPositive, F32.isFiniteF]
      | true =>
        exfalso
        have hm : (0 : ℚ) ≤ m := hwf
        simp [F32.val] at hval
        linarith
    | infinite => simp [F32.isFiniteF] at hfin
    | nan => simp [F32.isFiniteF] at hfin
  · intro hwf hval
    cases kind with
    | finite m =>
      cases sign with
      | false =>
        exfalso
        have hm : (0 : ℚ) ≤ m := hwf
        simp [F32.val] at hval
        linarith
      | true => simp [Cplex.with_mip_gap, F32.isSignPositive]
    | infinite => simp [F32.val] at hval
    | nan => simp [F32.val] at hval

/-- Witness for C2: the gap `0.5` is accepted and stored, and `-0.25` is
rejected with the descriptive error. -/
theorem c2_witness :
    Cplex.with_mip_gap Cplex.default ⟨false, .finite (1/2)⟩ =
      .ok { Cplex.default with mipgap := some ⟨false, .finite (1/2)⟩ } ∧
    Cplex.with_mip_gap Cplex.default ⟨true, .finite (1/4)⟩ =
      .error "Invalid MIP gap: must be positive and finite" :=
  ⟨(c2_with_mip_gap_amended Cplex.default ⟨false, .finite (1/2)⟩).1 ⟨rfl, rfl⟩,
   (c2_with_mip_gap_amended Cplex.default ⟨true, .finite (1/4)⟩).2.1 (Or.inl rfl)⟩

/-- C4: for every pair of paths, `arguments` is exactly
`["-c", "READ \"<lp>\"", "optimize", "WRITE \"<sol>\""]` when no MIP gap
is configured, and the same vector with the single element
`"set mip tolerances mipgap <gap>"` inserted between the READ element and
`"optimize"` when a gap is configured. -/
theorem c4_arguments_exact (toStr : F32 → String)
    (command lp_file solution_file : String) :
    Cplex.arguments ⟨command, none⟩ toStr lp_file solution_file =
      ["-c", "READ \"" ++ lp_file ++ "\"", "optimize",
        "WRITE \"" ++ solution_file ++ "\""] ∧
    ∀ g : F32,
      Cplex.arguments ⟨command, some g⟩ toStr lp_file solution_file =
        ["-c", "READ \"" ++ lp_file ++ "\"",
          "set mip tolerances mipgap " ++ toStr g, "optimize",
          "WRITE \"" ++ solution_file ++ "\""] :=
  ⟨rfl, fun _ => rfl⟩

/-- C5: `parse_stdout_status` returns `Some(Status::Infeasible)` exactly
when the stdout buffer contains the literal marker `"No solution exists"`
as a contiguous substring, returns `None` otherwise, and never returns any
status other than `Infeasible` — the infeasible outcome is a successfully
detected status, not an error. -/
theorem c5_parse_stdout_status_marker (stdout : List Char) :
    (parse_stdout_status stdout = some Status.Infeasible ↔
      ∃ pre post, stdout = pre ++ "No solution exists".toList ++ post) ∧
    ((¬ ∃ pre post, stdout = pre ++ "No solution exists".toList ++ post) →
      parse_stdout_status stdout = none) ∧
    (∀ st, parse_stdout_status stdout = some st → st = Status.Infeasible) := by
  have h := buf_contains_iff stdout "No solution exists".toList
  by_cases hb : buf_contains stdout "No solution exists".toList = true
  · have hst : parse_stdout_status stdout = some Status.Infeasible := by
      unfold parse_stdout_status
      rw [hb]
      rfl
    refine ⟨⟨fun _ => h.mp hb, fun _ => hst⟩, fun hno => absurd (h.mp hb) hno, ?_⟩
    intro st hstat
    rw [hst] at hstat
    injection hstat with h2
    exact h2.symm
  · have hb' : buf_contains stdout "No solution exists".toList = false := by
      cases hx : buf_contains stdout "No solution exists".toList
      · rfl
      · exact absurd hx hb
    have hst : parse_stdout_status stdout = none := by
      unfold parse_stdout_status
      rw [hb']
      rfl
    refine ⟨⟨fun hsome => ?_, fun hocc => absurd (h.mpr hocc) hb⟩,
      fun _ => hst, fun st hstat => ?_⟩
    · rw [hst] at hsome
      exact Option.noConfusion hsome
    · rw [hst] at hstat
      exact Option.noConfusion hstat

/-- Witness for C5: on a stdout capture that is exactly the marker, the
status is `Infeasible`; on an empty capture, no marker occurrence exists
and the scan yields `None`. -/
theorem c5_witness :
    Status.Infeasible = Status.Infeasible ∧ parse_stdout_status [] = none := by
  constructor
  · exact (c5_parse_stdout_status_marker "No solution exists".toList).2.2
      Status.Infeasible (by decide)
  · exact (c5_parse_stdout_status_marker []).2.1 (by
      rintro ⟨pre, post, hp⟩
      have := congrArg List.length hp
      simp [List.length_append] at this
      omega)

/-- C3 counterexample to the claim as stated: a `variable` element that is
missing its `name` attribute but carries a malformed `value` attribute is
not silently skipped — the whole parse fails, and the error message names
no variable (it prints `None`). -/
theorem c3_counterexample :
    read_specific_solution natParse none
        [XmlEvent.startElement "variable" [⟨"value", "abc"⟩]] =
      .error "invalid variable value for None: invalid float literal" := by
  decide

/-- C3 (amended): a malformed `value` attribute fails the whole parse with
an error carrying the Debug rendering of the name captured so far — the
offending variable's name when the `name` attribute precedes the `value`
attribute, `None` otherwise (in particular a missing-name element with a
malformed value is an error, not a skip); an element missing its `value`
attribute, or missing its `name` attribute while its `value` parses, is
silently skipped; and an entry is recorded in the result mapping once both
attributes have been captured. -/
theorem c3_variable_element_parsing {α : Type}
    (parseVal : String → Except String α) (hint : Option Nat)
    (n s e : String) (v : α) (rest : List XmlEvent) :
    (parseVal s = .error e →
      read_specific_solution parseVal hint
          (XmlEvent.startElement "variable" [⟨"name", n⟩, ⟨"value", s⟩] :: rest) =
        .error ("invalid variable value for " ++ debugOptStr (some n) ++ ": " ++ e)) ∧
    (parseVal s = .error e →
      read_specific_solution parseVal hint
          (XmlEvent.startElement "variable" [⟨"value", s⟩] :: rest) =
        .error ("invalid variable value for " ++ debugOptStr none ++ ": " ++ e)) ∧
    (read_specific_solution parseVal hint
        (XmlEvent.startElement "variable" [⟨"name", n⟩] :: rest) =
      read_specific_solution parseVal hint rest) ∧
    (parseVal s = .ok v →
      read_specific_solution parseVal hint
          (XmlEvent.startElement "variable" [⟨"value", s⟩] :: rest) =
        read_specific_solution parseVal hint rest) ∧
    (parseVal s = .ok v →
      read_specific_solution parseVal hint
          (XmlEvent.startElement "variable" [⟨"name", n⟩, ⟨"value", s⟩] :: rest) =
        runEvents parseVal rest ⟨Status.Optimal, [(n, v)]⟩) := by
  constructor
  · intro hp
    simp [read_specific_solution, runEvents, processAttrs, withCapacity,
      mapInsert, hp]
  constructor
  · intro hp
    simp [read_specific_solution, runEvents, processAttrs, withCapacity,
      mapInsert, hp]
  constructor
  · simp [read_specific_solution, runEvents, processAttrs, withCapacity]
  constructor
  · intro hp
    simp [read_specific_solution, runEvents, processAttrs, withCapacity,
      mapInsert, hp]
  · intro hp
    simp [read_specific_solution, runEvents, processAttrs, withCapacity,
      mapInsert, hp]

/-- Witness for C3 at concrete inputs: a malformed value with the name
captured first produces the error naming `x`, and a well-formed pair
records the entry `("x", 5)`. -/
theorem c3_witness :
    read_specific_solution natParse none
        [XmlEvent.startElement "variable" [⟨"name", "x"⟩, ⟨"value", "zz"⟩]] =
      .error ("invalid variable value for " ++ debugOptStr (some "x") ++ ": " ++
        "invalid float literal") ∧
    read_specific_solution natParse none
        [XmlEvent.startElement "variable" [⟨"name", "x"⟩, ⟨"value", "5"⟩]] =
      runEvents natParse [] ⟨Status.Optimal, [("x", 5)]⟩ :=
  ⟨(c3_variable_element_parsing natParse none "x" "zz" "invalid float literal"
      5 []).1 (by decide),
   (c3_variable_element_parsing natParse none "x" "5" "" 5 []).2.2.2.2
      (by decide)⟩

/-- A run of the event loop over a block of non-aborting events reaches the
remaining events with some accumulated solution. -/
theorem runEvents_ok_append {α : Type} (parseVal : String → Except String α)
    (pre : List XmlEvent) (hpre : ∀ ev ∈ pre, eventOk parseVal ev)
    (evs : List XmlEvent) (sol : Solution α) :
    ∃ sol', runEvents parseVal (pre ++ evs) sol = runEvents parseVal evs sol' := by
  induction pre generalizing sol with
  | nil => exact ⟨sol, rfl⟩
  | cons ev pre ih =>
    have hok := hpre ev (List.mem_cons_self _ _)
    have hpre' : ∀ e' ∈ pre, eventOk parseVal e' :=
      fun e' he' => hpre e' (List.mem_cons_of_mem _ he')
    cases ev with
    | xmlError m => exact absurd hok (by simp [eventOk])
    | otherEvent => simpa [runEvents] using ih hpre' sol
    | startElement l attrs =>
      by_cases hl : l = "variable"
      · subst hl
        obtain ⟨r, hr⟩ := hok rfl
        obtain ⟨oname, ovalue⟩ := r
        cases oname with
        | none =>
          cases ovalue with
          | none => simpa [runEvents, hr] using ih hpre' sol
          | some v => simpa [runEvents, hr] using ih hpre' sol
        | some nm =>
          cases ovalue with
          | none => simpa [runEvents, hr] using ih hpre' sol
          | some v =>
            simpa [runEvents, hr] using
              ih hpre' { sol with results := mapInsert sol.results nm v }
      · simpa [runEvents, hl] using ih hpre' sol

/-- The event loop never changes the status field of the accumulated
solution. -/
theorem runEvents_preserves_status {α : Type}
    (parseVal : String → Except String α) (events : List XmlEvent)
    (sol s : Solution α) (h : runEvents parseVal events sol = .ok s) :
    s.status = sol.status := by
  induction events generalizing sol with
  | nil =>
    injection h with h'
    rw [← h']
  | cons ev rest ih =>
    cases ev with
    | xmlError m => exact Except.noConfusion h
    | otherEvent => exact ih sol h
    | startElement l attrs =>
      unfold runEvents at h
      by_cases hl : l = "variable"
      · rw [if_pos hl] at h
        cases hp : processAttrs parseVal attrs none none with
        | error msg =>
          rw [hp] at h
          exact Except.noConfusion h
        | ok r =>
          rw [hp] at h
          obtain ⟨oname, ovalue⟩ := r
          cases oname with
          | none => cases ovalue <;> exact ih sol h
          | some nm =>
            cases ovalue with
            | none => exact ih sol h
            | some v =>
              exact ih { sol with results := mapInsert sol.results nm v } h
      · rw [if_neg hl] at h
        exact ih sol h

/-- C7: if parsing fails — on an XML reader error or on a `variable`
element with an unparsable value — then for every prefix of well-parsed
events, however many variable entries it accumulated, the call returns
exactly the error and nothing else: no partial variable→value mapping is
exposed. -/
theorem c7_no_partial_solution_on_error {α : Type}
    (parseVal : String → Except String α) (hint : Option Nat)
    (pre rest : List XmlEvent) (e : String)
    (hpre : ∀ ev ∈ pre, eventOk parseVal ev) :
    read_specific_solution parseVal hint (pre ++ XmlEvent.xmlError e :: rest) =
      .error ("xml error: " ++ e) ∧
    ∀ attrs msg, processAttrs parseVal attrs none none = .error msg →
      read_specific_solution parseVal hint
          (pre ++ XmlEvent.startElement "variable" attrs :: rest) =
        .error msg := by
  constructor
  · obtain ⟨sol', h⟩ :=
      runEvents_ok_append parseVal pre hpre (XmlEvent.xmlError e :: rest)
        { status := Status.Optimal, results := withCapacity (hint.getD 0) }
    unfold read_specific_solution
    rw [h]
    rfl
  · intro attrs msg hmsg
    obtain ⟨sol', h⟩ :=
      runEvents_ok_append parseVal pre hpre
        (XmlEvent.startElement "variable" attrs :: rest)
        { status := Status.Optimal, results := withCapacity (hint.getD 0) }
    unfold read_specific_solution
    rw [h]
    simp [runEvents, hmsg]

/-- Witness for C7: one well-parsed variable entry precedes an XML reader
error, and only the error comes back. -/
theorem c7_witness :
    read_specific_solution natParse none
        ([XmlEvent.startElement "variable" [⟨"name", "a"⟩, ⟨"value", "1"⟩]] ++
          XmlEvent.xmlError "boom" :: []) =
      .error ("xml error: " ++ "boom") := by
  have hpre : ∀ ev ∈ [XmlEvent.startElement "variable"
      [⟨"name", "a"⟩, ⟨"value", "1"⟩]], eventOk natParse ev := by
    intro ev hev
    simp only [List.mem_singleton] at hev
    subst hev
    intro _
    exact ⟨(some "a", some 1), by decide⟩
  exact (c7_no_partial_solution_on_error natParse none
    [XmlEvent.startElement "variable" [⟨"name", "a"⟩, ⟨"value", "1"⟩]]
    [] "boom" hpre).1

/-- C8: the returned solution — status and variable→value mapping — is
identical for every value of the problem hint (absent, present, or
inaccurate): the hint feeds only the initial capacity of the result map,
which has no observable content. -/
theorem c8_hint_does_not_affect_solution {α : Type}
    (parseVal : String → Except String α) (hint1 hint2 : Option Nat)
    (events : List XmlEvent) :
    read_specific_solution parseVal hint1 events =
      read_specific_solution parseVal hint2 events := rfl

/-- C9: whenever `read_specific_solution` returns `Ok`, the solution's
status is `Status.Optimal`, whatever the artifact's event stream contains —
the XML parser derives no other status from the solution file. -/
theorem c9_ok_status_is_optimal {α : Type}
    (parseVal : String → Except String α) (hint : Option Nat)
    (events : List XmlEvent) (s : Solution α)
    (h : read_specific_solution parseVal hint events = .ok s) :
    s.status = Status.Optimal :=
  runEvents_preserves_status parseVal events
    { status := Status.Optimal, results := withCapacity (hint.getD 0) } s h

/-- Witness for C9 on a concrete artifact with one variable entry. -/
theorem c9_witness :
    (Solution.status ⟨Status.Optimal, [("a", 1)]⟩ : Status) = Status.Optimal :=
  c9_ok_status_is_optimal natParse none
    [XmlEvent.startElement "variable" [⟨"name", "a"⟩, ⟨"value", "1"⟩]]
    ⟨Status.Optimal, [("a", 1)]⟩ (by decide)

/-- A generalized constraint preserves its operator and has a literal
constant on the right-hand side. -/
theorem generalize_shape (lc c : LpConstraint) (h : generalize lc = some c) :
    c.op = lc.op ∧ ∃ k : Int, c.rhs = LpExpression.LitVal k := by
  unfold generalize at h
  cases hc : canon (.SubExpr lc.lhs lc.rhs) with
  | none =>
    rw [hc] at h
    exact Option.noConfusion h
  | some p =>
    rw [hc] at h
    obtain ⟨coefs, k⟩ := p
    simp only [Option.bind_some, Option.pure_def] at h
    injection h with h'
    rw [← h']
    exact ⟨rfl, ⟨-k, rfl⟩⟩

/-- C6: for every pair of operands, each constructor `le`, `ge`, `equal`
yields (when it yields) a constraint carrying the corresponding relational
operator — never flipped — whose right-hand side after the `generalize`
step is a pure constant with zero variable coefficients. -/
theorem c6_constructors_preserve_op_and_generalize (a b : LpExpression) :
    (∀ c, leOp a b = some c →
      c.op = ConstraintOp.LessOrEqual ∧ pureConstant c.rhs) ∧
    (∀ c, geOp a b = some c →
      c.op = ConstraintOp.GreaterOrEqual ∧ pureConstant c.rhs) ∧
    (∀ c, equalOp a b = some c →
      c.op = ConstraintOp.Equal ∧ pureConstant c.rhs) := by
  refine ⟨fun c h => ?_, fun c h => ?_, fun c h => ?_⟩ <;>
  · obtain ⟨hop, k, hrhs⟩ := generalize_shape _ c h
    exact ⟨hop, k, by rw [hrhs]; simp [canon]⟩

/-- Witness for C6 at `a ≤ 3`: operator preserved and rhs a pure
constant. -/
theorem c6_witness :
    (LpConstraint.op ⟨.MulExpr (.LitVal 1) (.Var "a"),
        ConstraintOp.LessOrEqual, .LitVal 3⟩ = ConstraintOp.LessOrEqual) ∧
    pureConstant (LpConstraint.rhs ⟨.MulExpr (.LitVal 1) (.Var "a"),
        ConstraintOp.LessOrEqual, .LitVal 3⟩) :=
  (c6_constructors_preserve_op_and_generalize (.Var "a") (.LitVal 3)).1
    ⟨.MulExpr (.LitVal 1) (.Var "a"), ConstraintOp.LessOrEqual, .LitVal 3⟩
    (by decide)

end LpSolvers
